import Mathlib

/-!
# Verification of the synthetic PDF stress-test generator

Shallow embedding of `scripts/generate_large_pdf.py` and proofs about it.

Conventions used throughout:
* Python strings are modeled as `List Char`; `str.split()` (whitespace
  tokenization) and `" ".join` are embedded as `pySplit` and `joinSpace`.
* Python ints are modeled as `Int` (or `Nat` where the source value is
  manifestly non-negative); 32-bit wrap-around in the Mersenne Twister is
  made explicit with `% 2^32`.
* Python floats are modeled as exact rationals (`ℚ`) or reals (`ℝ`) —
  the claims under study do not depend on IEEE-754 rounding.
* The `reportlab` canvas is modeled as a trace of drawing commands; the
  `functools.lru_cache` decorator is modeled by an explicit LRU cache state
  (`LruCache`) recording the keys whose miss invoked the cached function.
* CPython's `random.Random` (MT19937) is embedded bit-exactly
  (`init_by_array`, the twist, tempering, `getrandbits`, `randrange`),
  since several claims depend on concrete sampled values.
-/

/-- Strict application: forces the numeral `x` before calling `f`.
Semantically it is just `f x` (see `sApp_eq`); it only guides kernel
evaluation of long sequential loops. -/
def sApp {α : Type} (f : Nat → α) (x : Nat) : α :=
  match x with
  | 0 => f 0
  | n+1 => f (n+1)

theorem sApp_eq {α : Type} (f : Nat → α) (x : Nat) : sApp f x = f x := by
  cases x <;> rfl

/-! ## Text layout engine: `wrap_lines` (source lines 40–58)

`wrap_lines(text, max_chars)` does `words = text.split()`, then greedily
accumulates words into `line` with running joined length `n`, yielding
`" ".join(line)` whenever the next word would overflow, and once more at
the end if `line` is nonempty. -/

/-- Whitespace class of Python's `str.split()` (ASCII part; the Unicode
space characters are elided — the theorems below hold for any class that
contains the space character). -/
def pyIsSpace (c : Char) : Bool :=
  c == ' ' || c == '\t' || c == '\n' || c == '\r' || c == '\x0b' || c == '\x0c'

/-- Tokenizer worker: `acc` is the (reversed) current partial token. -/
def pySplitAux : List Char → List Char → List (List Char)
  | [], acc => if acc.isEmpty then [] else [acc.reverse]
  | c :: cs, acc =>
    if pyIsSpace c then
      if acc.isEmpty then pySplitAux cs [] else acc.reverse :: pySplitAux cs []
    else
      pySplitAux cs (c :: acc)

/-- Python `text.split()`: maximal runs of non-whitespace characters. -/
def pySplit (s : List Char) : List (List Char) := pySplitAux s []

/-- Python `" ".join(ws)`. -/
def joinSpace : List (List Char) → List Char
  | [] => []
  | [w] => w
  | w :: ws => w ++ ' ' :: joinSpace ws

/-- The loop of `wrap_lines`: remaining `words`, current `line`, running
joined length `n`.  Faithful to source lines 44–58. -/
def wrap_linesAux (maxChars : Nat) : List (List Char) → List (List Char) → Nat → List (List Char)
  | [], line, _ => if line.isEmpty then [] else [joinSpace line]
  | w :: ws, line, n =>
    let add := w.length + (if line.isEmpty then 0 else 1)
    if maxChars < n + add then
      joinSpace line :: wrap_linesAux maxChars ws [w] w.length
    else
      if line.isEmpty then wrap_linesAux maxChars ws [w] w.length
      else wrap_linesAux maxChars ws (line ++ [w]) (n + add)

/-- Python `wrap_lines(text, max_chars)` (the generator, fully materialized). -/
def wrap_lines (text : List Char) (maxChars : Nat) : List (List Char) :=
  wrap_linesAux maxChars (pySplit text) [] 0

/-! ## Page geometry cycler: `page_size_for` (source lines 61–72)

Page sizes are the reportlab constants, embedded as exact rationals
(1 mm = 72/25.4 points). -/

/-- One millimetre in points (reportlab `mm`). -/
def mmPt : ℚ := 72 / 25.4

/-- reportlab `A4` (portrait, 210 mm × 297 mm). -/
def A4 : ℚ × ℚ := (210 * mmPt, 297 * mmPt)

/-- reportlab `LETTER` (portrait, 8.5 in × 11 in). -/
def LETTER : ℚ × ℚ := (8.5 * 72, 11 * 72)

/-- reportlab `landscape`: put the long edge first. -/
def landscape (p : ℚ × ℚ) : ℚ × ℚ :=
  if p.1 < p.2 then (p.2, p.1) else p

/-- Source `page_size_for(i, vary)`: fixed A4 unless varying, else cycle by `i % 4`. -/
def page_size_for (i : Int) (vary : Bool) : ℚ × ℚ :=
  if !vary then A4
  else
    match i % 4 with
    | 0 => A4
    | 1 => LETTER
    | 2 => landscape A4
    | _ => landscape LETTER

/-! ### Lemmas about the tokenizer -/

/-- A word list is nice when every word is nonempty and whitespace-free. -/
def NiceWords (l : List (List Char)) : Prop :=
  ∀ w ∈ l, w ≠ [] ∧ ∀ c ∈ w, pyIsSpace c = false

theorem pySplitAux_append_space (ys : List Char) :
    ∀ (xs acc : List Char),
      pySplitAux (xs ++ ' ' :: ys) acc = pySplitAux xs acc ++ pySplitAux ys [] := by
  intro xs
  induction xs with
  | nil =>
    intro acc
    by_cases h : acc.isEmpty <;> simp [pySplitAux, pyIsSpace, h]
  | cons c cs ih =>
    intro acc
    by_cases hsp : pyIsSpace c
    · by_cases h : acc.isEmpty <;> simp [pySplitAux, hsp, h, ih]
    · simp [pySplitAux, hsp, ih]

theorem pySplitAux_nice_word :
    ∀ (w acc : List Char), (∀ c ∈ w, pyIsSpace c = false) →
      pySplitAux w acc =
        if (acc.reverse ++ w).isEmpty then [] else [acc.reverse ++ w] := by
  intro w
  induction w with
  | nil => intro acc _; simp [pySplitAux, List.isEmpty_iff]
  | cons c cs ih =>
    intro acc hw
    have hc : pyIsSpace c = false := hw c (by simp)
    have hcs : ∀ x ∈ cs, pyIsSpace x = false := fun x hx => hw x (by simp [hx])
    rw [pySplitAux, hc]
    simp only [Bool.false_eq_true, if_false]
    rw [ih (c :: acc) hcs]
    simp [List.isEmpty_iff]

theorem pySplit_nice_word (w : List Char) (hne : w ≠ [])
    (hw : ∀ c ∈ w, pyIsSpace c = false) : pySplit w = [w] := by
  rw [pySplit, pySplitAux_nice_word w [] hw]
  simp [List.isEmpty_iff, hne]

theorem pySplit_joinSpace (lines : List (List Char)) :
    pySplit (joinSpace lines) = lines.flatMap pySplit := by
  induction lines with
  | nil => simp [joinSpace, pySplit, pySplitAux]
  | cons l rest ih =>
    cases rest with
    | nil => simp [joinSpace, List.flatMap]
    | cons l2 ls =>
      show pySplit (l ++ ' ' :: joinSpace (l2 :: ls)) = _
      rw [pySplit, pySplitAux_append_space, ← pySplit, ← pySplit, ih]
      simp [List.flatMap]

theorem pySplitAux_tokens_nice :
    ∀ (s acc : List Char), (∀ c ∈ acc, pyIsSpace c = false) →
      ∀ t ∈ pySplitAux s acc, t ≠ [] ∧ ∀ c ∈ t, pyIsSpace c = false := by
  intro s
  induction s with
  | nil =>
    intro acc hacc t ht
    rw [pySplitAux] at ht
    by_cases h : acc.isEmpty
    · simp [h] at ht
    · simp [h] at ht
      subst ht
      constructor
      · simp [List.isEmpty_iff] at h
        simpa using h
      · intro c hc
        exact hacc c (List.mem_reverse.mp hc)
  | cons c cs ih =>
    intro acc hacc t ht
    rw [pySplitAux] at ht
    by_cases hsp : pyIsSpace c
    · rw [if_pos hsp] at ht
      by_cases h : acc.isEmpty
      · rw [if_pos h] at ht
        exact ih [] (by simp) t ht
      · rw [if_neg h] at ht
        rcases List.mem_cons.mp ht with h1 | h1
        · subst h1
          refine ⟨?_, fun x hx => hacc x (List.mem_reverse.mp hx)⟩
          simp [List.isEmpty_iff] at h
          simpa using h
        · exact ih [] (by simp) t h1
    · rw [if_neg hsp] at ht
      refine ih (c :: acc) ?_ t ht
      intro x hx
      rcases List.mem_cons.mp hx with h1 | h1
      · subst h1; simpa using hsp
      · exact hacc x h1

theorem pySplit_tokens_nice (s : List Char) : NiceWords (pySplit s) :=
  fun t ht => pySplitAux_tokens_nice s [] (by simp) t ht

theorem pySplit_joinSpace_nice (line : List (List Char)) (h : NiceWords line) :
    pySplit (joinSpace line) = line := by
  rw [pySplit_joinSpace]
  induction line with
  | nil => simp
  | cons w ws ih =>
    have hw := h w (by simp)
    have hws : NiceWords ws := fun x hx => h x (by simp [hx])
    rw [List.flatMap_cons, pySplit_nice_word w hw.1 hw.2, ih hws]
    rfl

/-! ### Lemmas about the wrapping loop -/

theorem joinSpace_singleton (w : List Char) : joinSpace [w] = w := rfl

theorem joinSpace_append_length :
    ∀ (line : List (List Char)) (w : List Char), line ≠ [] →
      (joinSpace (line ++ [w])).length = (joinSpace line).length + 1 + w.length := by
  intro line
  induction line with
  | nil => intro w h; exact absurd rfl h
  | cons x rest ih =>
    intro w _
    cases rest with
    | nil => simp [joinSpace]; ring
    | cons y ls =>
      have h1 := ih w (by simp)
      have h2 : joinSpace (x :: y :: ls) = x ++ ' ' :: joinSpace (y :: ls) := rfl
      show (x ++ ' ' :: joinSpace ((y :: ls) ++ [w])).length = _
      rw [h2]
      simp only [List.length_append, List.length_cons] at *
      omega

theorem wrap_linesAux_flatMap (m : Nat) :
    ∀ (ws line : List (List Char)) (n : Nat), NiceWords ws → NiceWords line →
      (wrap_linesAux m ws line n).flatMap pySplit = line ++ ws := by
  intro ws
  induction ws with
  | nil =>
    intro line n _ hline
    rw [wrap_linesAux]
    by_cases h : line.isEmpty
    · simp [h, List.isEmpty_iff.mp h]
    · simp [h, pySplit_joinSpace_nice line hline]
  | cons w rest ih =>
    intro line n hws hline
    have hw : w ≠ [] ∧ ∀ c ∈ w, pyIsSpace c = false := hws w (by simp)
    have hrest : NiceWords rest := fun x hx => hws x (by simp [hx])
    have hsw : NiceWords [w] := by
      intro x hx; rcases List.mem_singleton.mp hx with rfl; exact hw
    rw [wrap_linesAux]
    by_cases hov : m < n + (w.length + if line.isEmpty then 0 else 1)
    · simp only [hov, if_true, List.flatMap_cons]
      rw [pySplit_joinSpace_nice line hline, ih [w] w.length hrest hsw]
      simp
    · simp only [hov, if_false]
      by_cases hemp : line.isEmpty
      · rw [if_pos hemp, ih [w] w.length hrest hsw, List.isEmpty_iff.mp hemp]
        rfl
      · rw [if_neg hemp, ih (line ++ [w]) _ hrest ?_]
        · simp
        · intro x hx
          rcases List.mem_append.mp hx with h1 | h1
          · exact hline x h1
          · rcases List.mem_singleton.mp h1 with rfl; exact hw

theorem wrap_linesAux_mem (m : Nat) (W : List (List Char)) :
    ∀ (ws line : List (List Char)) (n : Nat),
      (joinSpace line).length = n →
      (n ≤ m ∨ ∃ w, line = [w] ∧ w ∈ W) →
      (∀ w ∈ ws, w ∈ W) →
      ∀ L ∈ wrap_linesAux m ws line n, L.length ≤ m ∨ (L ∈ W ∧ m < L.length) := by
  intro ws
  induction ws with
  | nil =>
    intro line n hB hA _ L hL
    rw [wrap_linesAux] at hL
    by_cases h : line.isEmpty
    · simp [h] at hL
    · rw [if_neg h] at hL
      rcases List.mem_singleton.mp hL with rfl
      by_cases hlen : (joinSpace line).length ≤ m
      · exact Or.inl hlen
      · rcases hA with h1 | ⟨w, rfl, hw⟩
        · exact absurd (hB ▸ h1) hlen
        · exact Or.inr ⟨by simpa [joinSpace_singleton] using hw, by omega⟩
  | cons w rest ih =>
    intro line n hB hA hC L hL
    have hwW : w ∈ W := hC w (by simp)
    have hrestC : ∀ x ∈ rest, x ∈ W := fun x hx => hC x (by simp [hx])
    rw [wrap_linesAux] at hL
    by_cases hov : m < n + (w.length + if line.isEmpty then 0 else 1)
    · simp only [hov, if_true] at hL
      rcases List.mem_cons.mp hL with rfl | h1
      · by_cases hlen : (joinSpace line).length ≤ m
        · exact Or.inl hlen
        · rcases hA with h1 | ⟨x, rfl, hx⟩
          · exact absurd (hB ▸ h1) hlen
          · exact Or.inr ⟨by simpa [joinSpace_singleton] using hx, by omega⟩
      · exact ih [w] w.length rfl (Or.inr ⟨w, rfl, hwW⟩) hrestC L h1
    · simp only [hov, if_false] at hL
      by_cases hemp : line.isEmpty
      · rw [if_pos hemp] at hL
        have hov2 : n + w.length ≤ m := by
          rw [hemp] at hov
          simpa using hov
        exact ih [w] w.length rfl (Or.inl (by omega)) hrestC L hL
      · rw [if_neg hemp] at hL
        have hL2 : L ∈ wrap_linesAux m rest (line ++ [w]) (n + (w.length + 1)) := by
          simpa [hemp] using hL
        have hfit : n + (w.length + 1) ≤ m := by
          have hemp2 : line.isEmpty = false := by simpa using hemp
          rw [hemp2] at hov
          simpa using hov
        refine ih (line ++ [w]) (n + (w.length + 1)) ?_ (Or.inl hfit) hrestC L hL2
        rw [joinSpace_append_length line w (by simpa [List.isEmpty_iff] using hemp), hB]
        omega

/-- C3. Every line that `wrap_lines(text, maxChars)` produces has length at
most `maxChars`, except that a word of the text longer than `maxChars`
appears alone on its own line, unmodified. -/
theorem wrap_lines_bounded_or_alone (text : List Char) (maxChars : Nat)
    (L : List Char) (hL : L ∈ wrap_lines text maxChars) :
    L.length ≤ maxChars ∨ (L ∈ pySplit text ∧ maxChars < L.length) :=
  wrap_linesAux_mem maxChars (pySplit text) (pySplit text) [] 0 rfl
    (Or.inl (Nat.zero_le _)) (fun _ h => h) L hL

/-- Witness for C3 at a concrete input. -/
theorem wrap_lines_bounded_or_alone_witness :
    "hello".toList ∈ wrap_lines "hello world foo".toList 5 ∧
      ("hello".toList.length ≤ 5 ∨
        ("hello".toList ∈ pySplit "hello world foo".toList ∧ 5 < "hello".toList.length)) :=
  ⟨by decide, wrap_lines_bounded_or_alone "hello world foo".toList 5 "hello".toList (by decide)⟩

/-- C9. Re-joining the wrapped lines with single spaces and splitting on
whitespace recovers exactly the whitespace-split word sequence of the
original text: no word is lost, duplicated, split or reordered. -/
theorem wrap_lines_preserves_words (text : List Char) (maxChars : Nat) :
    pySplit (joinSpace (wrap_lines text maxChars)) = pySplit text := by
  rw [pySplit_joinSpace, wrap_lines,
    wrap_linesAux_flatMap maxChars (pySplit text) [] 0 (pySplit_tokens_nice text)
      (by intro w hw; cases hw)]
  rfl

/-- Helper for C10: once the running length exceeds the budget, the current
line is flushed as the next emitted line. -/
theorem wrap_linesAux_flush (m : Nat) (ws line : List (List Char)) (n : Nat)
    (hne : line.isEmpty = false) (h : m < n) :
    ∃ rest, wrap_linesAux m ws line n = joinSpace line :: rest := by
  cases ws with
  | nil => exact ⟨[], by rw [wrap_linesAux, hne]; rfl⟩
  | cons w rest =>
    refine ⟨wrap_linesAux m rest [w] w.length, ?_⟩
    rw [wrap_linesAux, hne]
    simp only [Bool.false_eq_true, if_false]
    rw [if_pos (show m < n + (w.length + 1) by omega)]

/-- C10. If the first word of the text is strictly longer than the budget,
the first emitted line is the empty string, and the oversized word follows
on the second line. -/
theorem wrap_lines_leading_empty_line (text : List Char) (maxChars : Nat)
    (w : List Char) (ws : List (List Char))
    (hsplit : pySplit text = w :: ws) (hlong : maxChars < w.length) :
    ∃ rest, wrap_lines text maxChars = [] :: w :: rest := by
  rw [wrap_lines, hsplit, wrap_linesAux]
  have hov : maxChars < 0 + (w.length + if ([] : List (List Char)).isEmpty then 0 else 1) := by
    simp only [List.isEmpty_nil, if_true]; omega
  simp only [hov, if_true]
  obtain ⟨rest, hrest⟩ :=
    wrap_linesAux_flush maxChars ws [w] w.length (by rfl) hlong
  exact ⟨rest, by rw [hrest, joinSpace_singleton]; rfl⟩

/-- Witness for C10 at a concrete input. -/
theorem wrap_lines_leading_empty_line_witness :
    ∃ rest, wrap_lines "abcdefgh xy".toList 3 = [] :: "abcdefgh".toList :: rest :=
  wrap_lines_leading_empty_line "abcdefgh xy".toList 3 "abcdefgh".toList ["xy".toList]
    (by decide) (by decide)

/-! ### Page size cycling -/

/-- C4. With size variation on, pages 1..4 get four pairwise-distinct
(size, orientation) pairs and the cycle has period 4; with variation off,
every page gets the fixed base size A4. -/
theorem page_size_for_cycle :
    (page_size_for 1 true ≠ page_size_for 2 true ∧
      page_size_for 1 true ≠ page_size_for 3 true ∧
      page_size_for 1 true ≠ page_size_for 4 true ∧
      page_size_for 2 true ≠ page_size_for 3 true ∧
      page_size_for 2 true ≠ page_size_for 4 true ∧
      page_size_for 3 true ≠ page_size_for 4 true) ∧
    (∀ (i : Int) (v : Bool), page_size_for (i + 4) v = page_size_for i v) ∧
    (∀ i : Int, page_size_for i false = A4) := by
  refine ⟨?_, fun i v => ?_, fun i => rfl⟩
  · have e1 : page_size_for 1 true = LETTER := rfl
    have e2 : page_size_for 2 true = landscape A4 := rfl
    have e3 : page_size_for 3 true = landscape LETTER := rfl
    have e4 : page_size_for 4 true = A4 := rfl
    rw [e1, e2, e3, e4]
    norm_num [landscape, A4, LETTER, mmPt, Prod.ext_iff]
  · have h : (i + 4) % 4 = i % 4 := by omega
    rw [page_size_for, page_size_for, h]

/-! ## CPython `random.Random` (MT19937)

`_make_image_reader`'s caller samples `rng.randrange(...)` from
`random.Random(seed + i * 7919)` (source lines 305–313), so settling the
cache-count claims needs the exact generator.  The 624-word state is packed
into a single natural number, word `i` occupying bits `[32*i, 32*i+32)`;
all arithmetic is explicit mod `2^32`.  The update loops force their state
with `sApp` so that kernel evaluation stays shallow. -/

/-- Truncation to 32 bits. -/
def u32 (n : Nat) : Nat := n % 4294967296

/-- Word `i` of the packed 624-word state. -/
def mtGet (s i : Nat) : Nat := (s >>> (32 * i)) % 4294967296

/-- Replace word `i` of the packed state by `v` (where `v < 2^32`). -/
def mtSet (s i v : Nat) : Nat :=
  s - (mtGet s i <<< (32 * i)) + (v <<< (32 * i))

/-- Fill loop of `init_genrand`:
`mt[i] = u32 (1812433253 * (mt[i-1] ^ (mt[i-1] >> 30)) + i)`. -/
def initGenrandAux : Nat → Nat → Nat → Nat → Nat
  | 0, _, _, acc => acc
  | k+1, i, prev, acc =>
    let v := u32 (1812433253 * (prev ^^^ (prev >>> 30)) + i)
    sApp (initGenrandAux k (i+1) v) (acc + (v <<< (32 * i)))

/-- Reference `init_genrand(s)` of the MT19937 implementation. -/
def init_genrand (s : Nat) : Nat :=
  let m0 := u32 s
  initGenrandAux 623 1 m0 m0

/-- One step of the first mixing loop of `init_by_array`:
`mt[i] = (mt[i] ^ ((mt[i-1] ^ (mt[i-1] >> 30)) * 1664525)) + key[j] + j`. -/
def ibaStep1 (key : List Nat) (mt i j : Nat) : Nat :=
  let prev := mtGet mt (i-1)
  mtSet mt i (u32 ((mtGet mt i ^^^ u32 ((prev ^^^ (prev >>> 30)) * 1664525)) + key.getD j 0 + j))

/-- First mixing loop: `k = max(624, keylen)` iterations; `i` wraps via
`mt[0] = mt[623]; i = 1`, and `j` cycles through the key. -/
def ibaLoop1 (key : List Nat) (klen : Nat) : Nat → Nat → Nat → Nat → Nat × Nat
  | 0, mt, i, _ => (mt, i)
  | k+1, mt, i, j =>
    let mt1 := ibaStep1 key mt i j
    let i1 := i + 1
    let p := if i1 ≥ 624 then (mtSet mt1 0 (mtGet mt1 623), 1) else (mt1, i1)
    let j1 := if j + 1 ≥ klen then 0 else j + 1
    sApp (fun m => ibaLoop1 key klen k m p.2 j1) p.1

/-- One step of the second mixing loop:
`mt[i] = (mt[i] ^ ((mt[i-1] ^ (mt[i-1] >> 30)) * 1566083941)) - i`, the
subtraction taken mod `2^32` (here `+ (2^32 - i)`, valid for `0 < i < 2^32`). -/
def ibaStep2 (mt i : Nat) : Nat :=
  let prev := mtGet mt (i-1)
  mtSet mt i (u32 ((mtGet mt i ^^^ u32 ((prev ^^^ (prev >>> 30)) * 1566083941)) + (4294967296 - u32 i)))

/-- Second mixing loop: 623 iterations with the same wrap rule for `i`. -/
def ibaLoop2 : Nat → Nat → Nat → Nat × Nat
  | 0, mt, i => (mt, i)
  | k+1, mt, i =>
    let mt1 := ibaStep2 mt i
    let i1 := i + 1
    let p := if i1 ≥ 624 then (mtSet mt1 0 (mtGet mt1 623), 1) else (mt1, i1)
    sApp (fun m => ibaLoop2 k m p.2) p.1

/-- Seeding `init_by_array(key)`: seed with 19650218, run both mixing loops, then
`mt[0] = 0x80000000`. -/
def init_by_array (key : List Nat) : Nat :=
  let mt0 := init_genrand 19650218
  let klen := key.length
  let p1 := ibaLoop1 key klen (max 624 klen) mt0 1 0
  let p2 := ibaLoop2 623 p1.1 p1.2
  mtSet p2.1 0 2147483648

/-- Twist constant `mag01[y & 1]`: `0x9908b0df` when the low bit is set. -/
def mag01 (y : Nat) : Nat := if y % 2 = 1 then 2567483615 else 0

/-- One twist step: combine the top bit of `mt[kk]` with the low bits of
`mt[kk+1]` and fold in `mt[src]`. -/
def twistStep (mt kk src : Nat) : Nat :=
  let y := (mtGet mt kk &&& 2147483648) ||| (mtGet mt (kk+1) &&& 2147483647)
  mtSet mt kk (mtGet mt src ^^^ (y >>> 1) ^^^ mag01 y)

/-- Twist, first phase: `kk = 0..226`, source `mt[kk+397]`. -/
def twistLoopA : Nat → Nat → Nat → Nat
  | 0, mt, _ => mt
  | k+1, mt, kk => sApp (fun m => twistLoopA k m (kk+1)) (twistStep mt kk (kk+397))

/-- Twist, second phase: `kk = 227..622`, source `mt[kk+397-624]`. -/
def twistLoopB : Nat → Nat → Nat → Nat
  | 0, mt, _ => mt
  | k+1, mt, kk => sApp (fun m => twistLoopB k m (kk+1)) (twistStep mt kk (kk+397-624))

/-- Full state twist (generates the next 624 outputs). -/
def twist (mt : Nat) : Nat :=
  let mt1 := twistLoopA 227 mt 0
  let mt2 := twistLoopB 396 mt1 227
  let y := (mtGet mt2 623 &&& 2147483648) ||| (mtGet mt2 0 &&& 2147483647)
  mtSet mt2 623 (mtGet mt2 396 ^^^ (y >>> 1) ^^^ mag01 y)

/-- MT19937 tempering. -/
def temper (y : Nat) : Nat :=
  let y1 := y ^^^ (y >>> 11)
  let y2 := y1 ^^^ ((y1 <<< 7) &&& 2636928640)
  let y3 := y2 ^^^ ((y2 <<< 15) &&& 4022730752)
  y3 ^^^ (y3 >>> 18)

/-- Generator state: packed word array plus the output index `mti`. -/
structure MTState where
  mt : Nat
  mti : Nat
  deriving DecidableEq

/-- Output step `genrand_uint32`: twist when the block is exhausted, then temper the
next word. -/
def genrand_uint32 (s : MTState) : Nat × MTState :=
  let s1 := if s.mti ≥ 624 then MTState.mk (twist s.mt) 0 else s
  (temper (mtGet s1.mt s1.mti), MTState.mk s1.mt (s1.mti + 1))

/-- Little-endian base-2^32 digits of `n` (`fuel ≥ n` suffices). -/
def natDigits32 (fuel : Nat) (n : Nat) : List Nat :=
  match fuel, n with
  | 0, _ => []
  | _, 0 => []
  | f+1, n => n % 4294967296 :: natDigits32 f (n / 4294967296)

/-- CPython seeds `random.Random(n)` with the base-2^32 digits of `|n|`
(key `[0]` for `n = 0`). -/
def seedKey (n : Nat) : List Nat := if n = 0 then [0] else natDigits32 n n

/-- Constructor `random.Random(seed)`: `init_by_array` over the digit key; `mti = 624`
forces a twist before the first output. -/
def pyRandomInit (seed : Int) : MTState :=
  MTState.mk (init_by_array (seedKey seed.natAbs)) 624

/-- Python `getrandbits(k)` for `0 < k ≤ 32`: the top `k` bits of one output. -/
def pyGetrandbits (k : Nat) (s : MTState) : Nat × MTState :=
  let p := genrand_uint32 s
  (p.1 >>> (32 - k), p.2)

/-- Retry fuel for `_randbelow` (the source loop is unbounded; every
concrete evaluation in this file succeeds well within this bound). -/
def randFuel : Nat := 64

/-- Python `_randbelow_with_getrandbits`: draw `k`-bit values until one is `< n`. -/
def pyRandbelow (k n : Nat) : Nat → MTState → Option (Nat × MTState)
  | 0, _ => none
  | fuel+1, s =>
    let p := pyGetrandbits k s
    if p.1 < n then some p else pyRandbelow k n fuel p.2

/-- Python `n.bit_length()` (structural, with fuel `n`). -/
def bitLengthAux : Nat → Nat → Nat
  | 0, _ => 0
  | fuel+1, n => if n = 0 then 0 else bitLengthAux fuel (n / 2) + 1

/-- Python `n.bit_length()`. -/
def bitLength (n : Nat) : Nat := bitLengthAux n n

/-- Python `randrange(n)` for `n ≥ 1` (with `k = n.bit_length()`). -/
def pyRandrange (n : Nat) (s : MTState) : Option (Nat × MTState) :=
  if 0 < n then pyRandbelow (bitLength n) n randFuel s else none

/-! ## Image configuration and the per-run image key sequence

`main` (source lines 394–401) resolves an `ImageConfig`; `draw_page`
(source lines 304–314) samples one variant per image slot from
`random.Random(img_cfg.seed + i * 7919)` and calls the cached
`_make_image_reader(img_cfg.px, variant, img_cfg.seed)`. -/

/-- The `ImageConfig` dataclass. -/
structure ImageConfig where
  enabled : Bool
  per_page : Nat
  px : Nat
  variants : Nat
  seed : Int
  fast : Bool
  deriving DecidableEq

/-- Resolution of `ImageConfig` in `main` (source lines 394–401):
`enabled = not no_images`, `per_page = max(0, ·)`, `px = max(64, ·)`,
`variants = max(1, ·)`. -/
def resolveImageConfig (no_images : Bool) (images_per_page image_px image_variants seed : Int)
    (fast : Bool) : ImageConfig :=
  { enabled := !no_images
    per_page := (max 0 images_per_page).toNat
    px := (max 64 image_px).toNat
    variants := (max 1 image_variants).toNat
    seed := seed
    fast := fast }

/-- The variants drawn for one page: `per_page` successive
`rng.randrange(n)` samples from a single per-page stream. -/
def pageVariantsAux (n : Nat) : Nat → MTState → Option (List Nat)
  | 0, _ => some []
  | k+1, s =>
    match pyRandrange n s with
    | none => none
    | some p =>
      match pageVariantsAux n k p.2 with
      | none => none
      | some vs => some (p.1 :: vs)

/-- Cache key of `_make_image_reader`: `(px, variant, seed)`. -/
abbrev ImageKey : Type := Nat × Nat × Int

/-- The image-cache keys requested while drawing page `i`
(source lines 305–314): nothing when images are disabled or
`per_page = 0`; otherwise one key per slot, with the variant sampled via
`rng.randrange(max(1, variants))` from `random.Random(seed + i * 7919)`.
In fast mode this is the page's whole use of that stream, so the modeled
variant values are exact; in slow placement mode the same stream also
serves the `rng.uniform` position draws between variant samples, so there
the concrete values would differ (all concrete claims below are fast-mode,
and the cache bound depends only on `randrange`'s range, not its values). -/
def draw_page_image_keys (cfg : ImageConfig) (i : Int) : Option (List ImageKey) :=
  if cfg.enabled ∧ 0 < cfg.per_page then
    (pageVariantsAux (max 1 cfg.variants) cfg.per_page
        (pyRandomInit (cfg.seed + i * 7919))).map
      (List.map fun v => (cfg.px, v, cfg.seed))
  else some []

/-- Page indices of `main`'s loop: `range(1, pages + 1)`. -/
def pageIndexList (pages : Int) : List Int :=
  (List.range pages.toNat).map fun k => (k : Int) + 1

/-- Concatenated image-cache key requests of a list of pages. -/
def runImageKeysAux (cfg : ImageConfig) : List Int → Option (List ImageKey)
  | [] => some []
  | i :: rest =>
    match draw_page_image_keys cfg i with
    | none => none
    | some ks =>
      match runImageKeysAux cfg rest with
      | none => none
      | some kr => some (ks ++ kr)

/-- All image-cache key requests of a whole run of `pages` pages. -/
def runImageKeys (pages : Int) (cfg : ImageConfig) : Option (List ImageKey) :=
  runImageKeysAux cfg (pageIndexList pages)

/-! ## The `functools.lru_cache` model

`_make_image_reader` is decorated with `lru_cache(maxsize=8)`.  The cache
state is its key list in most-recently-used-first order plus the ordered
list of keys whose miss invoked the wrapped function. -/

/-- LRU cache state: `order` is MRU-first; `missed` records every
invocation of the wrapped function, in order, with multiplicity. -/
structure LruCache (K : Type) where
  order : List K
  missed : List K

/-- One cached call: a hit moves the key to the front; a miss invokes the
function (recorded in `missed`), inserts the key in front and drops the
least-recently-used key beyond `cap`. -/
def lru_access {K : Type} [DecidableEq K] (cap : Nat) (s : LruCache K) (k : K) : LruCache K :=
  if k ∈ s.order then ⟨k :: s.order.erase k, s.missed⟩
  else ⟨(k :: s.order).take cap, s.missed ++ [k]⟩

/-- Run a sequence of cached calls. -/
def lru_run {K : Type} [DecidableEq K] (cap : Nat) : List K → LruCache K → LruCache K
  | [], s => s
  | k :: ks, s => lru_run cap ks (lru_access cap s k)

/-- The keys whose access invoked the wrapped function, starting from an
empty cache. -/
def lruMissed {K : Type} [DecidableEq K] (cap : Nat) (ks : List K) : List K :=
  (lru_run cap ks ⟨[], []⟩).missed

/-- Capacity (`maxsize`) of the `_make_image_reader` cache. -/
def imageCacheCap : Nat := 8

/-! ### Cache lemmas: as long as at most `cap` distinct keys are ever
requested, an LRU cache of capacity `cap` never evicts, so every key
invokes the wrapped function at most once. -/

/-- Invariant: cache keys and missed keys are duplicate-free, describe the
same key set, and stay inside the key universe `U`. -/
def LruInv {K : Type} [DecidableEq K] (U : Finset K) (s : LruCache K) : Prop :=
  s.order.Nodup ∧ s.missed.Nodup ∧ s.order.toFinset = s.missed.toFinset ∧
    ∀ k ∈ s.missed, k ∈ U

theorem lru_access_inv {K : Type} [DecidableEq K] {cap : Nat} {U : Finset K}
    {s : LruCache K} {k : K} (hs : LruInv U s) (hk : k ∈ U) (hcard : U.card ≤ cap) :
    LruInv U (lru_access cap s k) := by
  obtain ⟨ho, hm, hof, hmU⟩ := hs
  rw [lru_access]
  by_cases hmem : k ∈ s.order
  · rw [if_pos hmem]
    have hperm : List.Perm s.order (k :: s.order.erase k) := List.perm_cons_erase hmem
    exact ⟨hperm.nodup_iff.mp ho, hm,
      by rw [← List.toFinset_eq_of_perm _ _ hperm, hof], hmU⟩
  · rw [if_neg hmem]
    have hkm : k ∉ s.missed := by
      intro hc
      exact hmem (List.mem_toFinset.mp (hof ▸ List.mem_toFinset.mpr hc))
    have hsub : s.order.toFinset ⊆ U.erase k := by
      intro x hx
      refine Finset.mem_erase.mpr ⟨?_, hmU x (List.mem_toFinset.mp (hof ▸ hx))⟩
      rintro rfl
      exact hmem (List.mem_toFinset.mp hx)
    have hlen : s.order.length < cap := by
      have h1 : s.order.toFinset.card ≤ (U.erase k).card := Finset.card_le_card hsub
      rw [Finset.card_erase_of_mem hk] at h1
      have h2 : s.order.toFinset.card = s.order.length := List.toFinset_card_of_nodup ho
      have h3 : 0 < U.card := Finset.card_pos.mpr ⟨k, hk⟩
      omega
    have htake : (k :: s.order).take cap = k :: s.order :=
      List.take_of_length_le (by simpa using hlen)
    refine ⟨?_, ?_, ?_, ?_⟩
    · rw [htake]
      exact List.nodup_cons.mpr ⟨hmem, ho⟩
    · refine hm.append (List.nodup_singleton k) ?_
      intro x hx hy
      rw [List.mem_singleton] at hy
      subst hy
      exact hkm hx
    · show ((k :: s.order).take cap).toFinset = (s.missed ++ [k]).toFinset
      rw [htake, List.toFinset_cons, List.toFinset_append, hof]
      simp [Finset.insert_eq, Finset.union_comm]
    · intro x hx
      rcases List.mem_append.mp hx with h1 | h1
      · exact hmU x h1
      · rw [List.mem_singleton] at h1
        subst h1
        exact hk

theorem lru_run_inv {K : Type} [DecidableEq K] {cap : Nat} {U : Finset K}
    (hcard : U.card ≤ cap) :
    ∀ (ks : List K) (s : LruCache K), LruInv U s → (∀ k ∈ ks, k ∈ U) →
      LruInv U (lru_run cap ks s) := by
  intro ks
  induction ks with
  | nil => intro s hs _; exact hs
  | cons k rest ih =>
    intro s hs hks
    rw [lru_run]
    exact ih _ (lru_access_inv hs (hks k (by simp)) hcard)
      (fun x hx => hks x (by simp [hx]))

theorem lruMissed_bound {K : Type} [DecidableEq K] (cap : Nat) (U : Finset K)
    (ks : List K) (hks : ∀ k ∈ ks, k ∈ U) (hcard : U.card ≤ cap) :
    (lruMissed cap ks).Nodup ∧ (lruMissed cap ks).length ≤ U.card := by
  have h0 : LruInv U (⟨[], []⟩ : LruCache K) := ⟨List.nodup_nil, List.nodup_nil, rfl, by simp⟩
  obtain ⟨_, hm, _, hmU⟩ := lru_run_inv hcard ks ⟨[], []⟩ h0 hks
  rw [lruMissed]
  refine ⟨hm, ?_⟩
  have hsub : (lru_run cap ks (⟨[], []⟩ : LruCache K)).missed.toFinset ⊆ U := by
    intro x hx
    exact hmU x (List.mem_toFinset.mp hx)
  have hc := Finset.card_le_card hsub
  rwa [List.toFinset_card_of_nodup hm] at hc

/-! ### The sampled variants stay below `max(1, variants)` -/

theorem pyRandbelow_lt (k n : Nat) :
    ∀ (fuel : Nat) (s : MTState) (r : Nat) (s2 : MTState),
      pyRandbelow k n fuel s = some (r, s2) → r < n := by
  intro fuel
  induction fuel with
  | zero => intro s r s2 h; cases h
  | succ f ih =>
    intro s r s2 h
    rw [pyRandbelow] at h
    by_cases hlt : (pyGetrandbits k s).1 < n
    · rw [if_pos hlt] at h
      cases h
      exact hlt
    · rw [if_neg hlt] at h
      exact ih _ _ _ h

theorem pyRandrange_lt {n : Nat} {s : MTState} {r : Nat} {s2 : MTState}
    (h : pyRandrange n s = some (r, s2)) : r < n := by
  rw [pyRandrange] at h
  by_cases hn : 0 < n
  · rw [if_pos hn] at h
    exact pyRandbelow_lt _ n randFuel s r s2 h
  · rw [if_neg hn] at h
    cases h

theorem pageVariantsAux_lt (n : Nat) :
    ∀ (slots : Nat) (s : MTState) (vs : List Nat),
      pageVariantsAux n slots s = some vs → ∀ v ∈ vs, v < n := by
  intro slots
  induction slots with
  | zero =>
    intro s vs h v hv
    rw [pageVariantsAux] at h
    cases h
    cases hv
  | succ k ih =>
    intro s vs h v hv
    rw [pageVariantsAux] at h
    cases hr : pyRandrange n s with
    | none => rw [hr] at h; cases h
    | some p =>
      rw [hr] at h
      dsimp only at h
      cases hrec : pageVariantsAux n k p.2 with
      | none => rw [hrec] at h; cases h
      | some vs2 =>
        rw [hrec] at h
        dsimp only at h
        cases h
        rcases List.mem_cons.mp hv with rfl | h1
        · exact pyRandrange_lt hr
        · exact ih _ _ hrec v h1

/-- All cache keys a run with configuration `cfg` can ever request. -/
def allImageKeys (cfg : ImageConfig) : List ImageKey :=
  (List.range (max 1 cfg.variants)).map fun v => (cfg.px, v, cfg.seed)

theorem draw_page_image_keys_mem {cfg : ImageConfig} {i : Int} {ks : List ImageKey}
    (h : draw_page_image_keys cfg i = some ks) : ∀ k ∈ ks, k ∈ allImageKeys cfg := by
  rw [draw_page_image_keys] at h
  by_cases hcond : cfg.enabled ∧ 0 < cfg.per_page
  · rw [if_pos hcond] at h
    cases hvs : pageVariantsAux (max 1 cfg.variants) cfg.per_page
        (pyRandomInit (cfg.seed + i * 7919)) with
    | none => rw [hvs] at h; cases h
    | some vs =>
      rw [hvs] at h
      cases h
      intro k hk
      rw [List.mem_map] at hk
      obtain ⟨v, hv, rfl⟩ := hk
      rw [allImageKeys, List.mem_map]
      exact ⟨v, List.mem_range.mpr (pageVariantsAux_lt _ _ _ _ hvs v hv), rfl⟩
  · rw [if_neg hcond] at h
    cases h
    intro k hk
    cases hk

theorem runImageKeysAux_mem {cfg : ImageConfig} :
    ∀ (is : List Int) (ks : List ImageKey), runImageKeysAux cfg is = some ks →
      ∀ k ∈ ks, k ∈ allImageKeys cfg := by
  intro is
  induction is with
  | nil =>
    intro ks h k hk
    rw [runImageKeysAux] at h
    cases h
    cases hk
  | cons i rest ih =>
    intro ks h k hk
    rw [runImageKeysAux] at h
    cases hp : draw_page_image_keys cfg i with
    | none => rw [hp] at h; cases h
    | some kp =>
      rw [hp] at h
      cases hr : runImageKeysAux cfg rest with
      | none => rw [hr] at h; cases h
      | some kr =>
        rw [hr] at h
        cases h
        rcases List.mem_append.mp hk with h1 | h1
        · exact draw_page_image_keys_mem hp k h1
        · exact ih kr hr k h1

theorem runImageKeys_mem {pages : Int} {cfg : ImageConfig} {ks : List ImageKey}
    (h : runImageKeys pages cfg = some ks) : ∀ k ∈ ks, k ∈ allImageKeys cfg :=
  runImageKeysAux_mem (pageIndexList pages) ks h

/-! ### Claims about the texture cache -/

set_option maxRecDepth 1000000 in
/-- C2 (counterexample). The raster texture generator is NOT invoked
exactly `imageVariants` times at every page count: with
`pages = 1, imagesPerPage = 1, imageVariants = 2, seed = 0, fast`, the run
requests a single key (the page-1 stream of `random.Random(7919)` samples
variant 1), so the generator runs once, not `imageVariants = 2` times. -/
theorem texture_calls_exactly_variants_counterexample :
    (runImageKeys 1 (resolveImageConfig false 1 1600 2 0 true)).map
        (fun ks => (lruMissed imageCacheCap ks).length) = some 1 ∧
      (resolveImageConfig false 1 1600 2 0 true).variants = 2 ∧ (1 : Nat) ≠ 2 := by
  refine ⟨by decide, by decide, by decide⟩

/-- C2 (amended). In fast mode, over a whole run at any page count, provided
`imageVariants` does not exceed the cache capacity 8, the raster texture
generator is invoked at most `imageVariants` times — independent of
`pages × imagesPerPage` — and at most once per distinct key (the list of
keys whose miss invoked the generator is duplicate-free). -/
theorem texture_calls_at_most_variants (pages : Int) (cfg : ImageConfig)
    (ks : List ImageKey) (hfast : cfg.fast = true) (hv : 0 < cfg.variants)
    (hv8 : cfg.variants ≤ imageCacheCap) (hrun : runImageKeys pages cfg = some ks) :
    (lruMissed imageCacheCap ks).length ≤ cfg.variants ∧
      (lruMissed imageCacheCap ks).Nodup := by
  have hmem : ∀ k ∈ ks, k ∈ (allImageKeys cfg).toFinset := fun k hk =>
    List.mem_toFinset.mpr (runImageKeys_mem hrun k hk)
  have hcardv : (allImageKeys cfg).toFinset.card ≤ cfg.variants := by
    have h1 : (allImageKeys cfg).toFinset.card ≤ (allImageKeys cfg).length :=
      List.toFinset_card_le _
    have h2 : (allImageKeys cfg).length = cfg.variants := by
      rw [allImageKeys, List.length_map, List.length_range]
      omega
    omega
  obtain ⟨hnd, hlen⟩ := lruMissed_bound imageCacheCap (allImageKeys cfg).toFinset ks
    hmem (le_trans hcardv hv8)
  exact ⟨le_trans hlen hcardv, hnd⟩

/-- Witness for the amended C2 at a concrete configuration. -/
theorem texture_calls_at_most_variants_witness :
    (resolveImageConfig true 2 1600 3 0 true).fast = true ∧
      0 < (resolveImageConfig true 2 1600 3 0 true).variants ∧
      (resolveImageConfig true 2 1600 3 0 true).variants ≤ imageCacheCap ∧
      runImageKeys 5 (resolveImageConfig true 2 1600 3 0 true) = some [] ∧
      (lruMissed imageCacheCap ([] : List ImageKey)).length ≤
        (resolveImageConfig true 2 1600 3 0 true).variants :=
  ⟨by decide, by decide, by decide, by decide,
    (texture_calls_at_most_variants 5 (resolveImageConfig true 2 1600 3 0 true) []
      (by decide) (by decide) (by decide) (by decide)).1⟩

set_option maxRecDepth 1000000 in
/-- C5 (counterexample). In the scenario `pages = 3, fast, imageVariants = 2,
imagesPerPage = 1, seed = 1`, page 1's single image reference resolves to
variant 0 (sampled from `random.Random(1 + 1*7919)`), not `1 mod 2 = 1` as
the claim predicts. -/
theorem scenario_pages3_variant_counterexample :
    draw_page_image_keys (resolveImageConfig false 1 1600 2 1 true) 1 =
        some [(1600, 0, 1)] ∧
      some [((1600 : Nat), (0 : Nat), (1 : Int))] ≠
        some [((1600 : Nat), ((1 : Int) % 2).toNat, (1 : Int))] := by
  refine ⟨by decide, by decide⟩

set_option maxRecDepth 1000000 in
/-- C5 (amended). In the scenario `pages = 3, fast, imageVariants = 2,
imagesPerPage = 1, seed = 1` the texture generator is called exactly 2
times across the 3 pages, and the per-page variants are the RNG-sampled
values 0, 1, 0 (page `i` resolves to variant `(i+1) mod 2`, not
`i mod 2`). -/
theorem scenario_pages3_texture_calls :
    runImageKeys 3 (resolveImageConfig false 1 1600 2 1 true) =
        some [(1600, 0, 1), (1600, 1, 1), (1600, 0, 1)] ∧
      (lruMissed imageCacheCap
          [((1600 : Nat), (0 : Nat), (1 : Int)), (1600, 1, 1), (1600, 0, 1)]).length = 2 ∧
      [(0 : Nat), 1, 0] = [((1 + 1 : Int) % 2).toNat, ((2 + 1 : Int) % 2).toNat,
        ((3 + 1 : Int) % 2).toNat] := by
  refine ⟨by decide, by decide, by decide⟩

/-! ## Image drawing dimensions (source lines 312–330)

The intrinsic size of a generated texture is `(px, px)` — the PNG comes
from `Image.effect_noise((px, px), ...)`, hence is square — and `draw_page`
recomputes the drawn height (or, when clamped, the width) from the
referenced texture's intrinsic dimensions. -/

/-- Intrinsic pixel dimensions (`img.getSize()`) of `_make_image_reader`'s
texture: square of side `px`. -/
def imageReaderSize (px : Nat) : Nat × Nat := (px, px)

/-- Fast-mode drawn dimensions (source lines 316–318): the cached placement
supplies `draw_w`; `draw_h = draw_w * (ih / iw)`. -/
def image_draw_dims_fast (draw_w iw ih : ℚ) : ℚ × ℚ :=
  (draw_w, draw_w * (ih / iw))

/-- Slow-mode drawn dimensions (source lines 319–327):
`draw_w = min(max_w, max_w*scale)`, `draw_h = draw_w * (ih/iw)`, clamped to
`draw_h = max_h*0.8` with `draw_w = draw_h * (iw/ih)` when too tall. -/
def image_draw_dims_slow (scale max_w max_h iw ih : ℚ) : ℚ × ℚ :=
  let draw_w := min max_w (max_w * scale)
  let draw_h := draw_w * (ih / iw)
  if max_h * 0.8 < draw_h then (max_h * 0.8 * (iw / ih), max_h * 0.8)
  else (draw_w, draw_h)

/-- C7. In both placement modes, the drawn height divided by the drawn
width equals the texture's intrinsic pixel height divided by its intrinsic
pixel width (exactly, in the rational model). -/
theorem image_aspect_preserved (iw ih draw_w scale max_w max_h : ℚ)
    (hiw : 0 < iw) (hih : 0 < ih) (hdw : 0 < draw_w) (hs : 0 < scale)
    (hw : 0 < max_w) (hh : 0 < max_h) :
    (image_draw_dims_fast draw_w iw ih).2 / (image_draw_dims_fast draw_w iw ih).1 = ih / iw ∧
      (image_draw_dims_slow scale max_w max_h iw ih).2 /
          (image_draw_dims_slow scale max_w max_h iw ih).1 = ih / iw := by
  constructor
  · rw [image_draw_dims_fast]
    field_simp
    ring
  · rw [image_draw_dims_slow]
    have hdw2 : 0 < min max_w (max_w * scale) := lt_min hw (mul_pos hw hs)
    by_cases hcl : max_h * 0.8 < min max_w (max_w * scale) * (ih / iw)
    · rw [if_pos hcl]
      have h08 : (0 : ℚ) < max_h * 0.8 := by positivity
      field_simp
      ring
    · rw [if_neg hcl]
      field_simp
      ring

/-- Witness for C7 at concrete values. -/
theorem image_aspect_preserved_witness :
    (0 : ℚ) < 1600 ∧ (0 : ℚ) < 900 ∧ (0 : ℚ) < 120 ∧ (0 : ℚ) < 1 ∧
      (0 : ℚ) < 500 ∧ (0 : ℚ) < 400 ∧
      ((image_draw_dims_fast 120 1600 900).2 / (image_draw_dims_fast 120 1600 900).1 =
          900 / 1600 ∧
        (image_draw_dims_slow 1 500 400 1600 900).2 /
            (image_draw_dims_slow 1 500 400 1600 900).1 = 900 / 1600) :=
  ⟨by decide, by decide, by decide, by decide, by decide, by decide,
    image_aspect_preserved 1600 900 120 1 500 400 (by decide) (by decide) (by decide)
      (by decide) (by decide) (by decide)⟩

/-! ## Vector figure cache and `draw_heavy_figures` (source lines 124–177)

Geometry is over `ℝ` (trigonometric points are not executable); the
per-variant colors, sampled via `rng.random()`, are exact rationals. -/

/-- CPython `random.random()`: `(a * 2^26 + b) / 2^53` with
`a = genrand_uint32() >> 5` and `b = genrand_uint32() >> 6`. -/
def pyRandomFloat (s : MTState) : ℚ × MTState :=
  let p1 := genrand_uint32 s
  let p2 := genrand_uint32 p1.2
  ((((p1.1 >>> 5) * 67108864 + (p2.1 >>> 6) : Nat) : ℚ) / 9007199254740992, p2.2)

/-- One `(rng.random(), rng.random(), rng.random())` color triple. -/
def pyRandColor3 (s : MTState) : (ℚ × ℚ × ℚ) × MTState :=
  let p1 := pyRandomFloat s
  let p2 := pyRandomFloat p1.2
  let p3 := pyRandomFloat p2.2
  ((p1.1, p2.1, p3.1), p3.2)

/-- The list comprehension `[(r(),r(),r()) for _ in range(n)]`. -/
def pyRandColors : Nat → MTState → List (ℚ × ℚ × ℚ)
  | 0, _ => []
  | n+1, s =>
    let p := pyRandColor3 s
    p.1 :: pyRandColors n p.2

/-- The float while-loop `while x < hi: acc.append(x); x += step`
(`0 < step` guarantees termination). -/
noncomputable def realSteps (hi step : ℝ) (hstep : 0 < step) (x : ℝ) : List ℝ :=
  if hx : x < hi then x :: realSteps hi step hstep (x + step) else []
termination_by (⌈(hi - x) / step⌉).toNat
decreasing_by
  have harg : (hi - (x + step)) / step = (hi - x) / step - 1 := by
    field_simp
    ring
  have hpos : 0 < (hi - x) / step := div_pos (by linarith) hstep
  have hceil : 1 ≤ ⌈(hi - x) / step⌉ := Int.ceil_pos.mpr hpos
  rw [harg, Int.ceil_sub_one]
  omega

/-- The background grid of `_figure_variants` (source lines 131–137):
`y` from `0.15*h` while `< 0.45*h`, inner `x` from `0.1*w` while `< 0.9*w`,
both advancing by `step`. -/
noncomputable def figureGrid (w h step : ℝ) (hstep : 0 < step) : List (ℝ × ℝ) :=
  (realSteps (h * 0.45) step hstep (h * 0.15)).flatMap fun y =>
    (realSteps (w * 0.9) step hstep (w * 0.1)).map fun x => (x, y)

/-- Path `k` of a figure variant (source lines 143–151): `complexity`
points along `r(θ) = radius * (0.35 + 0.65 sin(θ(k+2)))` at
`θ = 2πt/complexity`, with angular multipliers `k+1` and `k+3`. -/
noncomputable def figurePath (w h : ℝ) (complexity k : Nat) : List (ℝ × ℝ) :=
  let cx := w * 0.5
  let cy := h * 0.55
  let radius := min w h * 0.38
  (List.range complexity).map fun t =>
    let a := (2 * Real.pi * t) / complexity
    let r := radius * (0.35 + 0.65 * Real.sin (a * (k + 2)))
    (cx + r * Real.cos (a * (k + 1)), cy + r * Real.sin (a * (k + 3)))

/-- One cached figure variant: 4 colors, 4 paths, the grid-point radius and
the shared grid. -/
structure FigVariant where
  colors : List (ℚ × ℚ × ℚ)
  paths : List (List (ℝ × ℝ))
  grid_r : ℝ
  grid : List (ℝ × ℝ)

noncomputable instance : Inhabited FigVariant := ⟨⟨[], [], 0, []⟩⟩

/-- Source `_figure_variants(w, h, complexity, variants, seed)` (source lines
124–153): the grid and step are computed once; each variant `v` derives its
colors from `random.Random(seed + v * 137)` and its 4 parametric paths. -/
noncomputable def _figure_variants (w h : ℝ) (complexity : Int) (variants : Nat)
    (seed : Int) : List FigVariant :=
  let step : ℝ := max 6 (min w h / 80)
  let grid := figureGrid w h step (lt_of_lt_of_le (by norm_num) (le_max_left 6 _))
  (List.range variants).map fun v =>
    { colors := pyRandColors 4 (pyRandomInit (seed + v * 137))
      paths := (List.range 4).map fun k => figurePath w h complexity.toNat k
      grid_r := step * 0.35
      grid := grid }

/-- Canvas drawing commands emitted by the figure component. -/
inductive DrawCmd where
  | saveState : DrawCmd
  | restoreState : DrawCmd
  | setLineWidth : ℝ → DrawCmd
  | setStrokeColor : ℚ × ℚ × ℚ → DrawCmd
  | line : ℝ × ℝ → ℝ × ℝ → DrawCmd
  | circle : ℝ × ℝ → ℝ → DrawCmd

/-- Strokes of one figure variant (source lines 166–176): per path, set its
color and stroke consecutive point pairs; then stroke a small gray circle
at every grid point. -/
noncomputable def figVariantCmds (fv : FigVariant) : List DrawCmd :=
  [DrawCmd.setLineWidth 0.4] ++
    ((fv.colors.zip fv.paths).flatMap fun cp =>
      DrawCmd.setStrokeColor cp.1 ::
        (cp.2.zip cp.2.tail).map fun pq => DrawCmd.line pq.1 pq.2) ++
    (DrawCmd.setStrokeColor (0.2, 0.2, 0.2) ::
      fv.grid.map fun p => DrawCmd.circle p fv.grid_r)

/-- Source `draw_heavy_figures` (source lines 156–177): fetch the cached 4-variant
set and stroke entry `variant % len(variants)`. -/
noncomputable def draw_heavy_figures (w h : ℝ) (complexity variant seed : Int) :
    List DrawCmd :=
  let variants := _figure_variants w h complexity 4 seed
  let fv := variants.getD (variant % (variants.length : Int)).toNat default
  [DrawCmd.saveState] ++ figVariantCmds fv ++ [DrawCmd.restoreState]

/-- The figure step of `draw_page` (source lines 278–286): call
`draw_heavy_figures` with `variant = i` only when `figure_complexity > 0`. -/
noncomputable def draw_page_figures (i : Int) (w h : ℝ) (figure_complexity seed : Int) :
    List DrawCmd :=
  if 0 < figure_complexity then draw_heavy_figures w h figure_complexity i seed
  else []

/-- C6. When figure complexity is positive, page `i` draws the cached
variant `i mod variantCount` (the cached set has exactly `variantCount = 4`
entries); when complexity is `0` (or negative) the figure component is a
no-op. -/
theorem draw_page_figures_selects_mod (i : Int) (w h : ℝ) (complexity seed : Int) :
    (_figure_variants w h complexity 4 seed).length = 4 ∧
      draw_page_figures i w h complexity seed =
        (if 0 < complexity then
          [DrawCmd.saveState] ++
            figVariantCmds
              ((_figure_variants w h complexity 4 seed).getD (i % 4).toNat default) ++
            [DrawCmd.restoreState]
        else []) := by
  have hlen : (_figure_variants w h complexity 4 seed).length = 4 := rfl
  refine ⟨hlen, ?_⟩
  by_cases hc : 0 < complexity
  · rw [draw_page_figures, if_pos hc, if_pos hc, draw_heavy_figures, hlen]
    norm_num
  · rw [draw_page_figures, if_neg hc, if_neg hc]

/-! ## Configuration resolution in `main` (source lines 390–414)

`main` parses the arguments, seeds the module-global RNG (unused by the
drawing code, which builds per-page `random.Random` instances), resolves
the `ImageConfig`, checks the Pillow dependency when images are enabled,
and then iterates `range(1, pages + 1)`.  It performs NO validation of the
page count. -/

/-- Everything `main` does before drawing: the only failure path is the
missing image codec (`_require_pillow`, source lines 85–92, abstracted by
`pillow_available`).  The result carries the resolved image configuration
and the page indices `range(1, pages + 1)` that the run will draw. -/
def mainResolve (pillow_available : Bool) (pages images_per_page image_px image_variants
    seed : Int) (no_images fast : Bool) : Except String (ImageConfig × List Int) :=
  let cfg := resolveImageConfig no_images images_per_page image_px image_variants seed fast
  if cfg.enabled = true ∧ pillow_available = false then
    Except.error "Pillow is required"
  else
    Except.ok (cfg, pageIndexList pages)

/-- C8 (code evaluated at the failing input). A non-positive page count is
NOT rejected: with `--pages 0` or `--pages -5`, configuration resolution
succeeds, the page loop `range(1, pages + 1)` is empty, and the run
completes without any error. -/
theorem nonpositive_pages_accepted :
    mainResolve true 0 2 1600 3 0 false false =
        Except.ok (resolveImageConfig false 2 1600 3 0 false, []) ∧
      mainResolve true (-5) 2 1600 3 0 false false =
        Except.ok (resolveImageConfig false 2 1600 3 0 false, []) :=
  ⟨rfl, rfl⟩
